import Mathlib

/-!
Verification of the FCN-8s semantic-segmentation training script (main.py).

The development shallowly embeds the in-scope core of the script:
* the decoder graph builder (function layers, main.py lines 49-101), embedded
  as a small tensor-graph AST with a shape semantics for SAME-padded
  convolutions and transposed convolutions;
* the loss builder (function optimize, lines 105-121), whose numeric content
  (reshape to rows of num_classes scores, row-wise softmax cross-entropy,
  arithmetic mean) is embedded over nested lists of reals;
* the numpy data augmentation (function augment_data, lines 125-143), embedded
  over rose trees modelling n-dimensional numpy arrays, plus a small heap
  model capturing that the function allocates fresh output arrays and never
  writes to its argument arrays;
* the training loop (function train_nn, lines 146-179), embedded as a
  deterministic event trace (batch-sequence requests, optimizer steps with
  the fed arrays, progress log lines).
-/

/-! Tensor-graph AST for the decoder builder. -/

/-- Static shape of a 4-D tensor: batch, height, width, channels. -/
structure TShape where
  batch : ℕ
  h : ℕ
  w : ℕ
  c : ℕ
deriving DecidableEq, Repr

/-- Kernel initializer used by the script (variance_scaling_initializer). -/
inductive KInit where
  | varianceScaling
deriving DecidableEq, Repr

/-- Padding mode; the script only ever passes SAME. -/
inductive TPad where
  | same
deriving DecidableEq, Repr

/-- Activation applied after a convolution; tf.layers.conv2d defaults to a
linear (identity) activation and the script never overrides it. -/
inductive TAct where
  | linear
  | relu
deriving DecidableEq, Repr

/-- Tensor-graph expressions: inputs with a static shape, 2-D convolutions,
2-D transposed convolutions, and elementwise addition, mirroring the
operations used by the function layers in main.py. -/
inductive TGraph where
  | input (s : TShape)
  | conv2d (x : TGraph) (filters : ℕ) (kernel : ℕ × ℕ) (strides : ℕ × ℕ)
      (init : KInit) (pad : TPad) (act : TAct)
  | conv2dTranspose (x : TGraph) (filters : ℕ) (kernel : ℕ × ℕ) (strides : ℕ × ℕ)
      (init : KInit) (pad : TPad) (act : TAct)
  | add (a b : TGraph)
deriving DecidableEq, Repr

/-- Embedding of the function layers (main.py lines 49-101): project each of
the three VGG feature maps to num_classes channels with 1x1 stride-1 SAME
linear convolutions, then upsample and fuse with skip connections, returning
the class heat-map node. Local names mirror the source variables. -/
def layers (vggLayer3Out vggLayer4Out vggLayer7Out : TGraph) (numClasses : ℕ) : TGraph :=
  let layer3Fcn := TGraph.conv2d vggLayer3Out numClasses (1, 1) (1, 1)
    KInit.varianceScaling TPad.same TAct.linear
  let layer4Fcn := TGraph.conv2d vggLayer4Out numClasses (1, 1) (1, 1)
    KInit.varianceScaling TPad.same TAct.linear
  let layer7Fcn := TGraph.conv2d vggLayer7Out numClasses (1, 1) (1, 1)
    KInit.varianceScaling TPad.same TAct.linear
  let layer7Up := TGraph.conv2dTranspose layer7Fcn numClasses (4, 4) (2, 2)
    KInit.varianceScaling TPad.same TAct.linear
  let layer4Skip := TGraph.add layer4Fcn layer7Up
  let layer4Up := TGraph.conv2dTranspose layer4Skip numClasses (4, 4) (2, 2)
    KInit.varianceScaling TPad.same TAct.linear
  let layer3Skip := TGraph.add layer3Fcn layer4Up
  let classHeatmap := TGraph.conv2dTranspose layer3Skip numClasses (16, 16) (8, 8)
    KInit.varianceScaling TPad.same TAct.linear
  classHeatmap

/-- Decoder computation as described by the specification, for comparison
with the source embedding: independent 1x1 stride-1 SAME linear projections
of the three feature maps to num_classes channels, a 4x4 stride-2 transposed
convolution upsampling the coarsest projection followed by elementwise
addition with the mid projection, the same upsampling of that sum followed by
addition with the finest projection, and a final 16x16 stride-8 transposed
convolution upsampling the result by 8. -/
def decoderSpec (finest mid coarsest : TGraph) (numClasses : ℕ) : TGraph :=
  let projectFinest := TGraph.conv2d finest numClasses (1, 1) (1, 1)
    KInit.varianceScaling TPad.same TAct.linear
  let projectMid := TGraph.conv2d mid numClasses (1, 1) (1, 1)
    KInit.varianceScaling TPad.same TAct.linear
  let projectCoarsest := TGraph.conv2d coarsest numClasses (1, 1) (1, 1)
    KInit.varianceScaling TPad.same TAct.linear
  let upCoarseTwice := TGraph.conv2dTranspose projectCoarsest numClasses (4, 4) (2, 2)
    KInit.varianceScaling TPad.same TAct.linear
  let skipFusion1 := TGraph.add projectMid upCoarseTwice
  let upFusedTwice := TGraph.conv2dTranspose skipFusion1 numClasses (4, 4) (2, 2)
    KInit.varianceScaling TPad.same TAct.linear
  let skipFusion2 := TGraph.add projectFinest upFusedTwice
  TGraph.conv2dTranspose skipFusion2 numClasses (16, 16) (8, 8)
    KInit.varianceScaling TPad.same TAct.linear

/-- Static shape semantics of the graph AST. SAME-padded convolution with
stride s maps spatial extent h to ceil(h / s); SAME-padded transposed
convolution with stride s maps h to h * s; elementwise addition requires
equal static shapes (a construction-time error otherwise, modelled as none).
-/
def shapeOf : TGraph → Option TShape
  | .input s => some s
  | .conv2d x filters _ strides _ .same _ =>
      (shapeOf x).map fun s =>
        ⟨s.batch, (s.h + strides.1 - 1) / strides.1, (s.w + strides.2 - 1) / strides.2, filters⟩
  | .conv2dTranspose x filters _ strides _ .same _ =>
      (shapeOf x).map fun s => ⟨s.batch, s.h * strides.1, s.w * strides.2, filters⟩
  | .add a b =>
      (shapeOf a).bind fun sa =>
        (shapeOf b).bind fun sb => if sa = sb then some sa else none

/-! Numpy arrays as rose trees, and the data augmentation. -/

/-- An n-dimensional numpy array modelled as a rose tree: a leaf is a scalar
element, a node is an axis whose children are the sub-arrays along it. -/
inductive NDArr (α : Type) where
  | leaf (x : α)
  | node (l : List (NDArr α))

/-- Number of axes (numpy ndim): 0 for a scalar, and one more than the ndim
of the first sub-array for a non-scalar (numpy arrays are rectangular, so the
first sub-array is representative; an empty axis counts as one dimension). -/
def ndimTree {α : Type} : NDArr α → ℕ
  | .leaf _ => 0
  | .node [] => 1
  | .node (x :: _) => 1 + ndimTree x

/-- Reverse an array along axis k, leaving the other axes untouched. This is
the semantics of the numpy basic-slicing expressions used by augment_data:
a[:, :, ::-1, :] is revAxis 2 and a[:, ::-1, :, :] is revAxis 1 (on 4-D
arrays). Scalars are returned unchanged (not reachable from the script). -/
def revAxis {α : Type} : ℕ → NDArr α → NDArr α
  | 0, .node l => .node l.reverse
  | k + 1, .node l => .node (l.map (revAxis k))
  | _, .leaf x => .leaf x

/-- The sub-arrays along axis 0 of an array. For a scalar this is empty
(numpy rejects 0-d arrays in concatenate; the case is never reached). -/
def childrenOf {α : Type} : NDArr α → List (NDArr α)
  | .node l => l
  | .leaf _ => []

/-- np.concatenate(arrays, axis=0): join the listed arrays along axis 0. -/
def concatAxis0 {α : Type} (arrays : List (NDArr α)) : NDArr α :=
  .node (arrays.flatMap childrenOf)

/-- Size of axis 0 (the batch axis) of an array. -/
def batchLen {α : Type} : NDArr α → ℕ
  | .node l => l.length
  | .leaf _ => 0

/-- Shape check: hasShapeB a s is true when a is a rectangular array of
shape s (scalars have shape []). -/
def hasShapeB {α : Type} : NDArr α → List ℕ → Bool
  | .leaf _, [] => true
  | .node l, n :: s => l.length == n && l.all (fun x => hasShapeB x s)
  | _, _ => false

/-- Embedding of augment_data (main.py lines 125-143): build the horizontal
flips (width axis reversed), the vertical flips (height axis reversed), and
concatenate [vertical flips, originals, horizontal flips] along the batch
axis for images and ground-truth labels alike. Local names mirror the source
variables. -/
def augmentData {α : Type} (images gtImages : NDArr α) : NDArr α × NDArr α :=
  let hfImages := revAxis 2 images
  let hfGtImages := revAxis 2 gtImages
  let vfImages := revAxis 1 images
  let vfGtImages := revAxis 1 gtImages
  let augImages := concatAxis0 [vfImages, images, hfImages]
  let augGtImages := concatAxis0 [vfGtImages, gtImages, hfGtImages]
  (augImages, augGtImages)

/-- A heap of array buffers; indices into the list act as array references. -/
abbrev NpHeap (α : Type) : Type := List (NDArr α)

/-- Heap-level embedding of augment_data: the two arguments are references
into the heap; the basic-slicing flips only read the argument buffers (numpy
views), and the two np.concatenate calls allocate fresh output buffers, here
appended at the end of the heap. Returns the new heap and references to the
two freshly allocated results. -/
def augmentDataHeap {α : Type} (heap : NpHeap α) (pImages pGtImages : ℕ) :
    NpHeap α × ℕ × ℕ :=
  let images := heap.getD pImages (NDArr.node [])
  let gtImages := heap.getD pGtImages (NDArr.node [])
  let res := augmentData images gtImages
  (heap ++ [res.1, res.2], heap.length, heap.length + 1)

/-! The training loop as an event trace. -/

/-- Observable events of one run of train_nn: a request of a fresh batch
sequence from get_batches_fn at the start of an epoch, an optimizer step
(sess.run of train_op) recording the seed batch pulled from the source and
the pair actually fed to the graph, and a progress log line carrying the
epoch index, batch index and loss value. -/
inductive Event (α : Type) where
  | requestBatches (epoch : ℕ)
  | optStep (epoch b : ℕ) (seed feed : NDArr α × NDArr α)
  | logLine (epoch b : ℕ) (lossVal : ℝ)

/-- Python enumerate: pair every list element with its index. -/
def enumerate {β : Type u} (l : List β) : List (ℕ × β) :=
  (List.range l.length).zip l

/-- The per-batch branch of train_nn (main.py lines 166-170): when the seed
image batch has ndim 4 the pair is augmented, otherwise it is fed
unmodified. -/
def stepFeed {α : Type} (seed : NDArr α × NDArr α) : NDArr α × NDArr α :=
  if ndimTree seed.1 = 4 then augmentData seed.1 seed.2 else seed

/-- Embedding of train_nn (main.py lines 146-179) as the trace of events it
produces: for each epoch, request a fresh batch sequence, then for each
enumerated (index, seed batch) pair run one optimizer step on stepFeed of the
seed, and emit a progress log line when the batch index is divisible by 10.
The opaque session evaluation is abstracted by sessRun, which yields the loss
value for the fed pair. -/
def trainNn {α : Type} (epochs batchSize : ℕ)
    (getBatchesFn : ℕ → List (NDArr α × NDArr α))
    (sessRun : NDArr α × NDArr α → ℝ) : List (Event α) :=
  (List.range epochs).flatMap fun epoch =>
    Event.requestBatches epoch ::
      (enumerate (getBatchesFn batchSize)).flatMap fun p =>
        Event.optStep epoch p.1 p.2 (stepFeed p.2) ::
          (if p.1 % 10 = 0 then [Event.logLine epoch p.1 (sessRun (stepFeed p.2))] else [])

/-- Recognizer for optimizer-step events. -/
def isOptStep {α : Type} : Event α → Bool
  | .optStep _ _ _ _ => true
  | _ => false

/-- Recognizer for batch-sequence-request events. -/
def isRequest {α : Type} : Event α → Bool
  | .requestBatches _ => true
  | _ => false

/-- Recognizer for progress-log events. -/
def isLogLine {α : Type} : Event α → Bool
  | .logLine _ _ _ => true
  | _ => false

/-! The loss builder over concrete values. -/

/-- A concrete 4-D tensor value: batch of images, image as rows, row as
pixels, pixel as the list of channel values. -/
abbrev T4 (α : Type) : Type := List (List (List (List α)))

/-- shape4B t b h w c: t is a rectangular 4-D tensor of shape [b, h, w, c].
-/
def shape4B {α : Type} (t : T4 α) (b h w c : ℕ) : Prop :=
  t.length = b ∧ ∀ im ∈ t, im.length = h ∧ ∀ r ∈ im, r.length = w ∧ ∀ p ∈ r, p.length = c

/-- tf.reshape(t, [-1, C]) on a 4-D tensor whose last axis has extent C:
row-major flattening of the three leading axes, keeping the per-pixel channel
rows intact. -/
def tfReshapeRows {α : Type} (t : T4 α) : List (List α) :=
  t.flatMap fun im => im.flatMap fun row => row

/-- Sum of the exponentials of a list of scores. -/
noncomputable def sumExp (xs : List ℝ) : ℝ :=
  (xs.map Real.exp).sum

/-- Log of the sum of exponentials of a list of scores. -/
noncomputable def logSumExp (xs : List ℝ) : ℝ :=
  Real.log (sumExp xs)

/-- tf.nn.softmax_cross_entropy_with_logits for one row: the negated sum over
classes of label times log-softmax of the logits. -/
noncomputable def softmaxXent (labels logits : List ℝ) : ℝ :=
  -(List.zipWith (fun l x => l * (x - logSumExp logits)) labels logits).sum

/-- tf.reduce_mean over a vector: sum divided by length. -/
noncomputable def reduceMean (xs : List ℝ) : ℝ :=
  xs.sum / xs.length

/-- Embedding of the loss computed by optimize (main.py lines 114-118):
reshape scores and labels to rows of num_classes entries, take row-wise
softmax cross-entropy, and reduce by arithmetic mean. Local names mirror the
source variables. -/
noncomputable def optimizeLoss (nnLastLayer correctLabel : T4 ℝ) : ℝ :=
  let logits := tfReshapeRows nnLastLayer
  let labels := tfReshapeRows correctLabel
  let xentropy := List.zipWith (fun lb lg => softmaxXent lb lg) labels logits
  reduceMean xentropy

/-- One-hot row over n classes with the single 1 at class k. -/
noncomputable def oneHot : ℕ → ℕ → List ℝ
  | 0, _ => []
  | n + 1, 0 => 1 :: List.replicate n 0
  | n + 1, k + 1 => 0 :: oneHot n k

/-- Softmax probability that a row of scores assigns to class k. -/
noncomputable def softmaxProb (xs : List ℝ) (k : ℕ) : ℝ :=
  Real.exp (xs.getD k 0) / sumExp xs

/-- Sum over all pixels of the softmax cross-entropy between the pixel's
label row and the pixel's score row, written directly on the nested 4-D
structure (independent of the flattening used by optimize). -/
noncomputable def pixelXentSum (correctLabel nnLastLayer : T4 ℝ) : ℝ :=
  ((correctLabel.zip nnLastLayer).map fun im =>
    ((im.1.zip im.2).map fun row =>
      ((row.1.zip row.2).map fun q => softmaxXent q.1 q.2).sum).sum).sum

/-! Helper lemmas about rose-tree arrays. -/

/-- Induction principle for rose-tree arrays with a simultaneous hypothesis
for every child of a node. -/
theorem NDArr.inductionOn {α : Type} {P : NDArr α → Prop}
    (hleaf : ∀ x, P (.leaf x))
    (hnode : ∀ l, (∀ x ∈ l, P x) → P (.node l)) :
    ∀ a, P a
  | .leaf x => hleaf x
  | .node l => hnode l (fun x _ => NDArr.inductionOn hleaf hnode x)

/-- Reversing the same axis twice is the identity, for every array. -/
theorem revAxis_involutive {α : Type} (a : NDArr α) :
    ∀ k, revAxis k (revAxis k a) = a := by
  induction a using NDArr.inductionOn with
  | hleaf x => intro k; cases k <;> rfl
  | hnode l ih =>
    intro k
    cases k with
    | zero => simp [revAxis]
    | succ k =>
      simp only [revAxis, List.map_map]
      rw [List.map_congr_left (g := id) fun x hx => by simp [ih x hx k], List.map_id]

/-- Unfolding of the shape check at a node. -/
theorem hasShapeB_node_iff {α : Type} (l : List (NDArr α)) (n : ℕ) (s : List ℕ) :
    hasShapeB (.node l) (n :: s) = true ↔
      l.length = n ∧ ∀ x ∈ l, hasShapeB x s = true := by
  simp [hasShapeB, List.all_eq_true]

/-- Reversing any axis preserves the shape of an array. -/
theorem hasShapeB_revAxis {α : Type} (a : NDArr α) :
    ∀ (s : List ℕ) (k : ℕ), hasShapeB a s = true → hasShapeB (revAxis k a) s = true := by
  induction a using NDArr.inductionOn with
  | hleaf x => intro s k h; cases k <;> simpa [revAxis] using h
  | hnode l ih =>
    intro s k h
    cases s with
    | nil => simp [hasShapeB] at h
    | cons n s =>
      rw [hasShapeB_node_iff] at h
      cases k with
      | zero =>
        rw [revAxis, hasShapeB_node_iff]
        exact ⟨by simpa using h.1, fun x hx => h.2 x (List.mem_reverse.mp hx)⟩
      | succ k =>
        rw [revAxis, hasShapeB_node_iff]
        refine ⟨by simpa using h.1, fun x hx => ?_⟩
        obtain ⟨y, hy, rfl⟩ := List.mem_map.mp hx
        exact ih y hy s k (h.2 y hy)

/-- A 4-D array (in fact any array of non-empty shape) is a node whose
children count is the leading extent. -/
theorem hasShapeB_node_of_cons {α : Type} {a : NDArr α} {n : ℕ} {s : List ℕ}
    (h : hasShapeB a (n :: s) = true) :
    ∃ l, a = .node l ∧ l.length = n ∧ ∀ x ∈ l, hasShapeB x s = true := by
  cases a with
  | leaf x => simp [hasShapeB] at h
  | node l => exact ⟨l, rfl, (hasShapeB_node_iff l n s).mp h⟩

/-! Claim theorems about the decoder graph (C5, C1). -/

/-- C5: the decoder's computation follows exactly the specified steps: the
three feature maps are independently projected to num_classes channels by 1x1
stride-1 SAME convolutions with no nonlinearity; the coarsest projection is
upsampled x2 by a 4x4-kernel stride-2 transposed convolution and added
elementwise to the mid projection; that sum is upsampled x2 the same way and
added elementwise to the finest projection; the result is upsampled x8 by a
16x16-kernel stride-8 transposed convolution and returned. -/
theorem layers_matches_decoder_steps
    (vggLayer3Out vggLayer4Out vggLayer7Out : TGraph) (numClasses : ℕ) :
    layers vggLayer3Out vggLayer4Out vggLayer7Out numClasses =
      decoderSpec vggLayer3Out vggLayer4Out vggLayer7Out numClasses := rfl

/-- C1 counterexample: at the specification's own example shapes (feature
maps [1,20,72,256], [1,10,36,512], [1,5,18,4096], num_classes 2) the decoder
output has spatial dimensions 160 x 576, which are 8x the finest map's 20 x
72 but not 8x the coarsest map's 5 x 18. -/
theorem decoder_shape_not_8x_coarsest :
    shapeOf (layers (.input ⟨1, 20, 72, 256⟩) (.input ⟨1, 10, 36, 512⟩)
        (.input ⟨1, 5, 18, 4096⟩) 2) = some ⟨1, 160, 576, 2⟩ ∧
      ¬(160 = 8 * 5 ∧ 576 = 8 * 18) := by
  refine ⟨rfl, by decide⟩

/-- C1 amended: for every valid triple of feature maps (matching batch
dimension, each map spatially twice the next-coarser one) and num_classes ≥
1, the decoder output's spatial dimensions are 8x the finest map's (which is
32x the coarsest map's, that is, the original input resolution) and its
channel count is num_classes. -/
theorem decoder_shape_8x_finest
    (b h3 w3 c3 h4 w4 c4 h7 w7 c7 n : ℕ) (_hn : 1 ≤ n)
    (hh3 : h3 = 2 * h4) (hw3 : w3 = 2 * w4) (hh4 : h4 = 2 * h7) (hw4 : w4 = 2 * w7) :
    shapeOf (layers (.input ⟨b, h3, w3, c3⟩) (.input ⟨b, h4, w4, c4⟩)
        (.input ⟨b, h7, w7, c7⟩) n) = some ⟨b, 8 * h3, 8 * w3, n⟩ ∧
      8 * h3 = 32 * h7 ∧ 8 * w3 = 32 * w7 := by
  subst hh3 hw3 hh4 hw4
  refine ⟨?_, by ring, by ring⟩
  simp only [layers, shapeOf, Option.map_some, Option.bind_some, Option.some_bind]
  norm_num
  rw [if_pos (⟨by ring, by ring⟩ : 2 * h7 = h7 * 2 ∧ 2 * w7 = w7 * 2), Option.some_bind,
    if_pos (show (⟨b, 2 * (2 * h7), 2 * (2 * w7), n⟩ : TShape) = ⟨b, 2 * h7 * 2, 2 * w7 * 2, n⟩ by
      simp only [TShape.mk.injEq]; exact ⟨trivial, by ring, by ring, trivial⟩)]
  simp only [Option.some.injEq, TShape.mk.injEq]
  exact ⟨trivial, by ring, by ring, trivial⟩

/-- C1 witness: the amended statement evaluated at the specification's
example shapes. -/
theorem decoder_shape_8x_finest_witness :
    shapeOf (layers (.input ⟨1, 20, 72, 256⟩) (.input ⟨1, 10, 36, 512⟩)
        (.input ⟨1, 5, 18, 4096⟩) 2) = some ⟨1, 8 * 20, 8 * 72, 2⟩ ∧
      8 * 20 = 32 * 5 ∧ 8 * 72 = 32 * 18 :=
  decoder_shape_8x_finest 1 20 72 256 10 36 512 5 18 4096 2
    (by norm_num) (by norm_num) (by norm_num) (by norm_num) (by norm_num)

/-! Claim theorems about the data augmentation (C9, C2, C10). -/

/-- C9: horizontal flipping as performed by augment_data (reversal of the
width axis, axis 2, the slice a[:, :, ::-1, :]) is an involution: applied
twice it reproduces the array exactly. -/
theorem hflip_involution {α : Type} (a : NDArr α) :
    revAxis 2 (revAxis 2 a) = a :=
  revAxis_involutive a 2

/-- C2: augment_data turns image and label batches of shape [N,H,W,C] into
batches of size 3N ordered [vertical flips, originals, horizontal flips]
along the batch axis, images and labels in matching order, every sample
keeping the per-sample shape, and the middle N samples of each output are
exactly the original input. -/
theorem augment_data_triples_batch {α : Type} (images gtImages : NDArr α)
    (N H W CI CG : ℕ)
    (hi : hasShapeB images [N, H, W, CI] = true)
    (hg : hasShapeB gtImages [N, H, W, CG] = true) :
    hasShapeB (augmentData images gtImages).1 [3 * N, H, W, CI] = true ∧
    hasShapeB (augmentData images gtImages).2 [3 * N, H, W, CG] = true ∧
    childrenOf (augmentData images gtImages).1 =
      childrenOf (revAxis 1 images) ++ childrenOf images ++ childrenOf (revAxis 2 images) ∧
    childrenOf (augmentData images gtImages).2 =
      childrenOf (revAxis 1 gtImages) ++ childrenOf gtImages ++ childrenOf (revAxis 2 gtImages) ∧
    ((childrenOf (augmentData images gtImages).1).drop N).take N = childrenOf images ∧
    ((childrenOf (augmentData images gtImages).2).drop N).take N = childrenOf gtImages := by
  obtain ⟨li, rfl, hlen, hmem⟩ := hasShapeB_node_of_cons hi
  obtain ⟨lg, rfl, hglen, hgmem⟩ := hasShapeB_node_of_cons hg
  have e1 : (augmentData (NDArr.node li) (NDArr.node lg)).1 =
      NDArr.node (li.map (revAxis 0) ++ (li ++ li.map (revAxis 1))) := by
    simp [augmentData, concatAxis0, childrenOf, revAxis]
  have e2 : (augmentData (NDArr.node li) (NDArr.node lg)).2 =
      NDArr.node (lg.map (revAxis 0) ++ (lg ++ lg.map (revAxis 1))) := by
    simp [augmentData, concatAxis0, childrenOf, revAxis]
  have shapePart : ∀ (l : List (NDArr α)) (C : ℕ), l.length = N →
      (∀ x ∈ l, hasShapeB x [H, W, C] = true) →
      hasShapeB (NDArr.node (l.map (revAxis 0) ++ (l ++ l.map (revAxis 1)))) [3 * N, H, W, C]
        = true := by
    intro l C hl hm
    rw [hasShapeB_node_iff]
    refine ⟨by simp [hl]; omega, fun x hx => ?_⟩
    simp only [List.mem_append, List.mem_map] at hx
    rcases hx with ⟨y, hy, rfl⟩ | hx | ⟨y, hy, rfl⟩
    · exact hasShapeB_revAxis y _ 0 (hm y hy)
    · exact hm x hx
    · exact hasShapeB_revAxis y _ 1 (hm y hy)
  refine ⟨by rw [e1]; exact shapePart li CI hlen hmem,
          by rw [e2]; exact shapePart lg CG hglen hgmem, ?_, ?_, ?_, ?_⟩
  · rw [e1]; simp [childrenOf, revAxis, List.append_assoc]
  · rw [e2]; simp [childrenOf, revAxis, List.append_assoc]
  · rw [e1]
    have hm : (li.map (revAxis 0)).length = N := by simpa using hlen
    simp only [childrenOf]
    rw [← hm, List.drop_left, List.length_map, List.take_left]
  · rw [e2]
    have hm : (lg.map (revAxis 0)).length = N := by simpa using hglen
    simp only [childrenOf]
    rw [← hm, List.drop_left, List.length_map, List.take_left]

/-- C2 witness: the claim evaluated on a concrete 1x1x1x1 image batch and a
matching 1x1x1x2 label batch shape is instantiated with CI = CG = 1 here. -/
theorem augment_data_triples_batch_witness :
    hasShapeB (NDArr.node [NDArr.node [NDArr.node [NDArr.node [NDArr.leaf (7 : ℕ)]]]])
        [1, 1, 1, 1] = true ∧
    hasShapeB (augmentData (NDArr.node [NDArr.node [NDArr.node [NDArr.node [NDArr.leaf (7 : ℕ)]]]])
        (NDArr.node [NDArr.node [NDArr.node [NDArr.node [NDArr.leaf (9 : ℕ)]]]])).1
        [3 * 1, 1, 1, 1] = true ∧
    ((childrenOf (augmentData (NDArr.node [NDArr.node [NDArr.node [NDArr.node [NDArr.leaf (7 : ℕ)]]]])
        (NDArr.node [NDArr.node [NDArr.node [NDArr.node [NDArr.leaf (9 : ℕ)]]]])).1).drop 1).take 1 =
      childrenOf (NDArr.node [NDArr.node [NDArr.node [NDArr.node [NDArr.leaf (7 : ℕ)]]]]) := by
  have h := augment_data_triples_batch
    (NDArr.node [NDArr.node [NDArr.node [NDArr.node [NDArr.leaf (7 : ℕ)]]]])
    (NDArr.node [NDArr.node [NDArr.node [NDArr.node [NDArr.leaf (9 : ℕ)]]]])
    1 1 1 1 1 rfl rfl
  exact ⟨rfl, h.1, h.2.2.2.2.1⟩

/-- C10: the heap-level augment_data never mutates its argument arrays: the
prior heap is preserved verbatim, and the two returned references point at
freshly allocated buffers (beyond the old heap) holding the augmented
batches. -/
theorem augment_data_heap_frame {α : Type} (heap : NpHeap α) (pImages pGtImages : ℕ) :
    (augmentDataHeap heap pImages pGtImages).1 =
      heap ++ [(augmentData (heap.getD pImages (.node [])) (heap.getD pGtImages (.node []))).1,
               (augmentData (heap.getD pImages (.node [])) (heap.getD pGtImages (.node []))).2] ∧
    ((augmentDataHeap heap pImages pGtImages).1).take heap.length = heap ∧
    (augmentDataHeap heap pImages pGtImages).2.1 = heap.length ∧
    (augmentDataHeap heap pImages pGtImages).2.2 = heap.length + 1 := by
  refine ⟨rfl, ?_, rfl, rfl⟩
  simp [augmentDataHeap]

/-! Helper lemmas for the event-trace embedding of the training loop. -/

/-- Counting in a flatMap is summing the per-element counts. -/
theorem countP_flatMap {β γ : Type} (l : List β) (f : β → List γ) (p : γ → Bool) :
    (l.flatMap f).countP p = (l.map fun a => (f a).countP p).sum := by
  induction l with
  | nil => simp
  | cons a t ih => simp [List.countP_append, ih]

/-- Summing a function that is constant on the list. -/
theorem sum_map_const_of {β : Type} (l : List β) (g : β → ℕ) (n : ℕ)
    (h : ∀ x ∈ l, g x = n) : (l.map g).sum = l.length * n := by
  induction l with
  | nil => simp
  | cons a t ih =>
    rw [List.map_cons, List.sum_cons, h a (by simp), ih (fun x hx => h x (by simp [hx]))]
    simp [List.length_cons]
    ring

/-- Length of an enumeration. -/
theorem enumerate_length {β : Type u} (l : List β) : (enumerate l).length = l.length := by
  simp [enumerate]

/-- Enumeration of a cons cell. -/
theorem enumerate_cons {β : Type u} (a : β) (l : List β) :
    enumerate (a :: l) = (0, a) :: (enumerate l).map (fun p => (p.1 + 1, p.2)) := by
  simp only [enumerate, List.length_cons, List.range_succ_eq_map, List.zip_cons_cons,
    List.zip_map_left]
  rfl

/-- Every index below the length appears in the enumeration, paired with the
element at that index. -/
theorem mem_enumerate {β : Type u} (l : List β) :
    ∀ (i : ℕ) (h : i < l.length), (i, l.get ⟨i, h⟩) ∈ enumerate l := by
  induction l with
  | nil => intro i h; simp at h
  | cons a t ih =>
    intro i h
    rw [enumerate_cons]
    cases i with
    | zero => simp
    | succ i =>
      refine List.mem_cons_of_mem _ ?_
      exact List.mem_map.mpr ⟨(i, t.get ⟨i, by simpa using h⟩), ih i _, rfl⟩

/-! Claim theorems about the training loop (C4, C8, C6). -/

/-- C4: for a batch source yielding K batches per epoch and E epochs, the
training loop requests a fresh batch sequence at each of the E epochs and
invokes the optimizer step exactly E * K times, one step per source batch. -/
theorem train_nn_invokes_steps {α : Type} (epochs batchSize K : ℕ)
    (getBatchesFn : ℕ → List (NDArr α × NDArr α)) (sessRun : NDArr α × NDArr α → ℝ)
    (hK : (getBatchesFn batchSize).length = K) :
    (trainNn epochs batchSize getBatchesFn sessRun).countP isOptStep = epochs * K ∧
    (trainNn epochs batchSize getBatchesFn sessRun).countP isRequest = epochs ∧
    ∀ e, e < epochs →
      Event.requestBatches e ∈ trainNn epochs batchSize getBatchesFn sessRun := by
  refine ⟨?_, ?_, ?_⟩
  · rw [trainNn, countP_flatMap, sum_map_const_of _ _ K ?_, List.length_range]
    intro e _
    rw [List.countP_cons, countP_flatMap, sum_map_const_of _ _ 1 ?_, enumerate_length, hK]
    · simp [isOptStep]
    · intro p _
      rw [List.countP_cons]
      have : ((if p.1 % 10 = 0 then
          [Event.logLine (α := α) e p.1 (sessRun (stepFeed p.2))] else [])).countP isOptStep
          = 0 := by
        split <;> simp [List.countP_cons, isOptStep]
      simp [this, isOptStep]
  · rw [trainNn, countP_flatMap, sum_map_const_of _ _ 1 ?_, List.length_range, Nat.mul_one]
    intro e _
    rw [List.countP_cons, countP_flatMap, sum_map_const_of _ _ 0 ?_]
    · simp [isRequest]
    · intro p _
      rw [List.countP_cons]
      have : ((if p.1 % 10 = 0 then
          [Event.logLine (α := α) e p.1 (sessRun (stepFeed p.2))] else [])).countP isRequest
          = 0 := by
        split <;> simp [List.countP_cons, isRequest]
      simp [this, isRequest]
  · intro e he
    simp only [trainNn, List.mem_flatMap]
    exact ⟨e, List.mem_range.mpr he, List.mem_cons_self _ _⟩

/-- C4 witness: one epoch over a single mock batch performs exactly one
optimizer step and one batch-sequence request. -/
theorem train_nn_invokes_steps_witness :
    ((fun (_ : ℕ) => [(NDArr.leaf (0 : ℕ), NDArr.leaf (0 : ℕ))]) 4).length = 1 ∧
    (trainNn 1 4 (fun _ => [(NDArr.leaf (0 : ℕ), NDArr.leaf (0 : ℕ))])
      (fun _ => (0 : ℝ))).countP isOptStep = 1 * 1 ∧
    (trainNn 1 4 (fun _ => [(NDArr.leaf (0 : ℕ), NDArr.leaf (0 : ℕ))])
      (fun _ => (0 : ℝ))).countP isRequest = 1 := by
  have h := train_nn_invokes_steps 1 4 1
    (fun _ => [(NDArr.leaf (0 : ℕ), NDArr.leaf (0 : ℕ))]) (fun _ => (0 : ℝ)) rfl
  exact ⟨rfl, h.1, h.2.1⟩

/-- C8: a progress log line is emitted for a batch exactly when its index b
satisfies b mod 10 = 0, and a run over a single batch with one epoch logs
exactly one line (at b = 0). -/
theorem train_nn_logs_tenth {α : Type} (epochs batchSize K : ℕ)
    (getBatchesFn : ℕ → List (NDArr α × NDArr α)) (sessRun : NDArr α × NDArr α → ℝ)
    (hK : (getBatchesFn batchSize).length = K) :
    (∀ e b v, Event.logLine e b v ∈ trainNn epochs batchSize getBatchesFn sessRun →
      b % 10 = 0) ∧
    (∀ e b, e < epochs → b < K → b % 10 = 0 →
      ∃ v, Event.logLine e b v ∈ trainNn epochs batchSize getBatchesFn sessRun) ∧
    (epochs = 1 → K = 1 →
      (trainNn epochs batchSize getBatchesFn sessRun).countP isLogLine = 1) := by
  refine ⟨?_, ?_, ?_⟩
  · intro e b v h
    simp only [trainNn, List.mem_flatMap, List.mem_cons] at h
    obtain ⟨ep, _, h⟩ := h
    rcases h with h | h
    · simp at h
    · obtain ⟨p, _, h⟩ := h
      rcases h with h | h
      · simp at h
      · by_cases hb : p.1 % 10 = 0
        · rw [if_pos hb] at h
          simp only [List.mem_singleton, Event.logLine.injEq] at h
          omega
        · rw [if_neg hb] at h
          simp at h
  · intro e b he hb hb10
    have hb' : b < (getBatchesFn batchSize).length := by rw [hK]; exact hb
    refine ⟨sessRun (stepFeed ((getBatchesFn batchSize).get ⟨b, hb'⟩)), ?_⟩
    simp only [trainNn, List.mem_flatMap]
    refine ⟨e, List.mem_range.mpr he, ?_⟩
    refine List.mem_cons_of_mem _ ?_
    simp only [List.mem_flatMap]
    refine ⟨(b, (getBatchesFn batchSize).get ⟨b, hb'⟩), mem_enumerate _ b hb', ?_⟩
    refine List.mem_cons_of_mem _ ?_
    rw [if_pos hb10]
    simp
  · intro h1 hK1
    subst h1
    obtain ⟨x, hx⟩ := List.length_eq_one.mp (hK.trans hK1)
    simp only [trainNn, hx]
    rfl

/-- C8 witness: one epoch over a single mock batch logs exactly one line,
and that line is at batch index 0. -/
theorem train_nn_logs_tenth_witness :
    ((fun (_ : ℕ) => [(NDArr.leaf (0 : ℕ), NDArr.leaf (0 : ℕ))]) 4).length = 1 ∧
    (trainNn 1 4 (fun _ => [(NDArr.leaf (0 : ℕ), NDArr.leaf (0 : ℕ))])
      (fun _ => (0 : ℝ))).countP isLogLine = 1 ∧
    (∃ v, Event.logLine 0 0 v ∈ trainNn 1 4
      (fun _ => [(NDArr.leaf (0 : ℕ), NDArr.leaf (0 : ℕ))]) (fun _ => (0 : ℝ))) := by
  have h := train_nn_logs_tenth 1 4 1
    (fun _ => [(NDArr.leaf (0 : ℕ), NDArr.leaf (0 : ℕ))]) (fun _ => (0 : ℝ)) rfl
  exact ⟨rfl, h.2.2 rfl rfl, h.2.1 0 0 (by norm_num) (by norm_num) (by norm_num)⟩

/-- C6: for a well-formed batch pulled in the training loop (images and
labels of equal ndim), data augmentation is applied, tripling the batch, if
and only if the pair is genuinely 4-dimensional; otherwise the pair is
passed to the optimizer step unmodified. Every optimizer step in the trace
feeds exactly stepFeed of its seed batch. -/
theorem train_nn_augments_iff_4d {α : Type} (images gtImages : NDArr α)
    (hmatch : ndimTree gtImages = ndimTree images)
    (epochs batchSize : ℕ) (getBatchesFn : ℕ → List (NDArr α × NDArr α))
    (sessRun : NDArr α × NDArr α → ℝ) :
    ((ndimTree images = 4 ∧ ndimTree gtImages = 4) →
        stepFeed (images, gtImages) = augmentData images gtImages ∧
        batchLen (stepFeed (images, gtImages)).1 = 3 * batchLen images ∧
        batchLen (stepFeed (images, gtImages)).2 = 3 * batchLen gtImages) ∧
    (¬(ndimTree images = 4 ∧ ndimTree gtImages = 4) →
        stepFeed (images, gtImages) = (images, gtImages)) ∧
    (∀ e b seed feed,
        Event.optStep e b seed feed ∈ trainNn epochs batchSize getBatchesFn sessRun →
        feed = stepFeed seed) := by
  refine ⟨?_, ?_, ?_⟩
  · rintro ⟨h4i, h4g⟩
    have hstep : stepFeed (images, gtImages) = augmentData images gtImages := by
      simp [stepFeed, h4i]
    refine ⟨hstep, ?_, ?_⟩ <;> rw [hstep] <;>
      cases images with
      | leaf x => simp [ndimTree] at h4i
      | node l =>
        cases gtImages with

        | leaf y => simp [ndimTree] at h4g
        | node g =>
          simp [augmentData, concatAxis0, childrenOf, revAxis, batchLen]
          omega
  · intro hno
    have hni : ndimTree images ≠ 4 := fun h => hno ⟨h, hmatch.trans h⟩
    simp [stepFeed, hni]
  · intro e b seed feed h
    simp only [trainNn, List.mem_flatMap, List.mem_cons] at h
    obtain ⟨ep, _, h⟩ := h
    rcases h with h | h
    · simp at h
    · obtain ⟨p, _, h⟩ := h
      rcases h with h | h
      · simp only [Event.optStep.injEq] at h
        obtain ⟨_, _, h3, h4⟩ := h
        rw [h4, h3]
      · by_cases hb : p.1 % 10 = 0
        · rw [if_pos hb] at h
          simp at h
        · rw [if_neg hb] at h
          simp at h

/-- C6 witness: a matching 4-D pair of 1x1x1x1 arrays is augmented and its
batch axis tripled. -/
theorem train_nn_augments_iff_4d_witness :
    ndimTree (NDArr.node [NDArr.node [NDArr.node [NDArr.node [NDArr.leaf (2 : ℕ)]]]]) =
      ndimTree (NDArr.node [NDArr.node [NDArr.node [NDArr.node [NDArr.leaf (1 : ℕ)]]]]) ∧
    stepFeed (NDArr.node [NDArr.node [NDArr.node [NDArr.node [NDArr.leaf (1 : ℕ)]]]],
        NDArr.node [NDArr.node [NDArr.node [NDArr.node [NDArr.leaf (2 : ℕ)]]]]) =
      augmentData (NDArr.node [NDArr.node [NDArr.node [NDArr.node [NDArr.leaf (1 : ℕ)]]]])
        (NDArr.node [NDArr.node [NDArr.node [NDArr.node [NDArr.leaf (2 : ℕ)]]]]) ∧
    batchLen (stepFeed (NDArr.node [NDArr.node [NDArr.node [NDArr.node [NDArr.leaf (1 : ℕ)]]]],
        NDArr.node [NDArr.node [NDArr.node [NDArr.node [NDArr.leaf (2 : ℕ)]]]])).1 =
      3 * batchLen (NDArr.node [NDArr.node [NDArr.node [NDArr.node [NDArr.leaf (1 : ℕ)]]]]) := by
  have h := train_nn_augments_iff_4d
    (NDArr.node [NDArr.node [NDArr.node [NDArr.node [NDArr.leaf (1 : ℕ)]]]])
    (NDArr.node [NDArr.node [NDArr.node [NDArr.node [NDArr.leaf (2 : ℕ)]]]])
    rfl 0 0 (fun _ => []) (fun _ => (0 : ℝ))
  exact ⟨rfl, (h.1 ⟨rfl, rfl⟩).1, (h.1 ⟨rfl, rfl⟩).2.1⟩

/-! Helper lemmas for the loss embedding. -/

/-- Flattening a 4-D tensor of shape [b,h,w,c] yields b*h*w pixel rows. -/
theorem tfReshapeRows_length {α : Type} {t : T4 α} {b h w c : ℕ}
    (ht : shape4B t b h w c) : (tfReshapeRows t).length = b * h * w := by
  obtain ⟨hb, hmem⟩ := ht
  simp only [tfReshapeRows, List.length_flatMap]
  rw [sum_map_const_of _ _ (h * w) ?_, hb, Nat.mul_assoc]
  intro im him
  simp only [Function.comp_apply, List.length_flatMap]
  rw [sum_map_const_of _ _ w ?_, (hmem im him).1]
  intro r hr
  exact ((hmem im him).2 r hr).1

/-- Every flattened pixel row of a [b,h,w,c] tensor has length c. -/
theorem tfReshapeRows_row_length {α : Type} {t : T4 α} {b h w c : ℕ}
    (ht : shape4B t b h w c) : ∀ row ∈ tfReshapeRows t, row.length = c := by
  intro row hrow
  simp only [tfReshapeRows, List.mem_flatMap] at hrow
  obtain ⟨im, him, r, hr, hrow⟩ := hrow
  exact ((ht.2 im him).2 r hr).2 row hrow

/-- Zipping two flatMaps piecewise when corresponding pieces have equal
lengths. -/
theorem zipWith_flatMap_eq {A B γ δ ε : Type} (F : γ → δ → ε) :
    ∀ (as : List A) (bs : List B) (f : A → List γ) (g : B → List δ),
      as.length = bs.length →
      (∀ p ∈ as.zip bs, (f p.1).length = (g p.2).length) →
      List.zipWith F (as.flatMap f) (bs.flatMap g) =
        (as.zip bs).flatMap fun p => List.zipWith F (f p.1) (g p.2) := by
  intro as
  induction as with
  | nil =>
    intro bs f g hlen _
    cases bs with
    | nil => simp
    | cons b bs => simp at hlen
  | cons a as ih =>
    intro bs f g hlen hcond
    cases bs with
    | nil => simp at hlen
    | cons b bs =>
      simp only [List.flatMap_cons, List.zip_cons_cons]
      rw [List.zipWith_append _ _ _ _ _ (hcond (a, b) (by simp)),
        ih bs f g (by simpa using hlen) (fun p hp => hcond p (by simp [hp]))]

/-- Sum of a flatMap of real lists. -/
theorem sum_flatMap_real {β : Type} (l : List β) (f : β → List ℝ) :
    (l.flatMap f).sum = (l.map fun a => (f a).sum).sum := by
  induction l with
  | nil => simp
  | cons a t ih => simp [List.sum_append, ih]

/-- zipWith as a map over the zip. -/
theorem zipWith_eq_map_zip {A B C : Type} (F : A → B → C) :
    ∀ (l1 : List A) (l2 : List B),
      List.zipWith F l1 l2 = (l1.zip l2).map fun p => F p.1 p.2 := by
  intro l1
  induction l1 with
  | nil => intro l2; simp
  | cons a t ih =>
    intro l2
    cases l2 with
    | nil => simp
    | cons b s => simp [ih s]

/-- Congruence for flatMap. -/
theorem flatMap_congr {β γ : Type} {l : List β} {f g : β → List γ}
    (h : ∀ a ∈ l, f a = g a) : l.flatMap f = l.flatMap g := by
  induction l with
  | nil => simp
  | cons a t ih => simp [h a (by simp), ih (fun x hx => h x (by simp [hx]))]

/-- The sum of exponentials is nonnegative. -/
theorem sumExp_nonneg (l : List ℝ) : 0 ≤ sumExp l :=
  List.sum_nonneg fun x hx => by
    obtain ⟨y, _, rfl⟩ := List.mem_map.mp hx
    exact (Real.exp_pos y).le

/-- The sum of exponentials of a non-empty list is positive. -/
theorem sumExp_pos {l : List ℝ} (h : l ≠ []) : 0 < sumExp l := by
  cases l with
  | nil => exact absurd rfl h
  | cons a t =>
    rw [sumExp, List.map_cons, List.sum_cons]
    exact add_pos_of_pos_of_nonneg (Real.exp_pos a) (sumExp_nonneg t)

/-- Each exponential is at most the sum of exponentials. -/
theorem exp_le_sumExp {l : List ℝ} {y : ℝ} (hy : y ∈ l) : Real.exp y ≤ sumExp l :=
  List.single_le_sum
    (fun x hx => by
      obtain ⟨z, _, rfl⟩ := List.mem_map.mp hx
      exact (Real.exp_pos z).le)
    _ (List.mem_map_of_mem Real.exp hy)

/-- Any entry of a score row is at most the row's log-sum-exp. -/
theorem getD_le_logSumExp {xs : List ℝ} {k : ℕ} (hk : k < xs.length) :
    xs.getD k 0 ≤ logSumExp xs := by
  have hmem : xs.getD k 0 ∈ xs := by
    rw [List.getD_eq_getElem xs 0 hk]
    exact List.getElem_mem hk
  calc xs.getD k 0 = Real.log (Real.exp (xs.getD k 0)) := (Real.log_exp _).symm
    _ ≤ logSumExp xs := Real.log_le_log (Real.exp_pos _) (exp_le_sumExp hmem)

/-- The label-weighted sum vanishes on an all-zero label prefix. -/
theorem zipWith_replicate_zero (c₀ : ℝ) : ∀ (n : ℕ) (ys : List ℝ),
    (List.zipWith (fun l x => l * (x - c₀)) (List.replicate n 0) ys).sum = 0 := by
  intro n
  induction n with
  | zero => intro ys; simp
  | succ n ih =>
    intro ys
    cases ys with
    | nil => simp
    | cons y ys => simp [List.replicate_succ, ih ys]

/-- The label-weighted sum against a one-hot row picks out the hot entry. -/
theorem oneHot_dot (c₀ : ℝ) : ∀ (xs : List ℝ) (k : ℕ), k < xs.length →
    (List.zipWith (fun l x => l * (x - c₀)) (oneHot xs.length k) xs).sum =
      xs.getD k 0 - c₀ := by
  intro xs
  induction xs with
  | nil => intro k hk; simp at hk
  | cons y ys ih =>
    intro k hk
    cases k with
    | zero =>
      simp only [List.length_cons, oneHot, List.zipWith_cons_cons, List.sum_cons]
      rw [zipWith_replicate_zero c₀ ys.length ys]
      simp
    | succ k =>
      simp only [List.length_cons, oneHot, List.zipWith_cons_cons, List.sum_cons]
      rw [ih k (by simpa using hk)]
      simp [List.getD_cons_succ]

/-- A one-hot row over n classes has length n. -/
theorem oneHot_length : ∀ (n k : ℕ), (oneHot n k).length = n := by
  intro n
  induction n with
  | zero => intro k; rfl
  | succ n ih =>
    intro k
    cases k with
    | zero => simp [oneHot]
    | succ k => simp [oneHot, ih k]

/-- Softmax cross-entropy against a one-hot label is log-sum-exp minus the
hot score. -/
theorem softmaxXent_oneHot {xs : List ℝ} {k : ℕ} (hk : k < xs.length) :
    softmaxXent (oneHot xs.length k) xs = logSumExp xs - xs.getD k 0 := by
  rw [softmaxXent, oneHot_dot (logSumExp xs) xs k hk]
  ring

/-- Softmax cross-entropy against a one-hot label is nonnegative. -/
theorem softmaxXent_oneHot_nonneg {xs : List ℝ} {k : ℕ} (hk : k < xs.length) :
    0 ≤ softmaxXent (oneHot xs.length k) xs := by
  rw [softmaxXent_oneHot hk]
  exact sub_nonneg.mpr (getD_le_logSumExp hk)

/-- Members of a zipWith come from members of the two lists. -/
theorem of_mem_zipWith {A B C : Type} {F : A → B → C} :
    ∀ {l1 : List A} {l2 : List B} {z : C}, z ∈ List.zipWith F l1 l2 →
      ∃ a b, a ∈ l1 ∧ b ∈ l2 ∧ z = F a b := by
  intro l1
  induction l1 with
  | nil => intro l2 z h; simp at h
  | cons a t ih =>
    intro l2 z h
    cases l2 with
    | nil => simp at h
    | cons b s =>
      rw [List.zipWith_cons_cons] at h
      rcases List.mem_cons.mp h with h | h
      · exact ⟨a, b, by simp, by simp, h⟩
      · obtain ⟨a1, b1, h1, h2, h3⟩ := ih h
        exact ⟨a1, b1, by simp [h1], by simp [h2], h3⟩

/-! Claim theorems about the loss builder (C3, C7). -/

/-- C3: optimize flattens heat-map and label tensor from [b,h,w,c] to
[b*h*w, c] rows, computes softmax cross-entropy between each flattened score
row and its corresponding label row, and reduces by arithmetic mean, so the
returned loss is the mean per-pixel cross-entropy. -/
theorem optimize_loss_mean_per_pixel (nnLastLayer correctLabel : T4 ℝ) (b h w c : ℕ)
    (hh : shape4B nnLastLayer b h w c) (hl : shape4B correctLabel b h w c) :
    (tfReshapeRows nnLastLayer).length = b * h * w ∧
    (∀ row ∈ tfReshapeRows nnLastLayer, row.length = c) ∧
    (tfReshapeRows correctLabel).length = b * h * w ∧
    (∀ row ∈ tfReshapeRows correctLabel, row.length = c) ∧
    optimizeLoss nnLastLayer correctLabel =
      pixelXentSum correctLabel nnLastLayer / (b * h * w) := by
  refine ⟨tfReshapeRows_length hh, tfReshapeRows_row_length hh, tfReshapeRows_length hl,
    tfReshapeRows_row_length hl, ?_⟩
  show reduceMean (List.zipWith (fun lb lg => softmaxXent lb lg)
      (tfReshapeRows correctLabel) (tfReshapeRows nnLastLayer)) =
    pixelXentSum correctLabel nnLastLayer / (b * h * w)
  have hxen : List.zipWith (fun lb lg => softmaxXent lb lg)
      (tfReshapeRows correctLabel) (tfReshapeRows nnLastLayer) =
      (correctLabel.zip nnLastLayer).flatMap fun p =>
        List.zipWith (fun lb lg => softmaxXent lb lg)
          (p.1.flatMap fun r => r) (p.2.flatMap fun r => r) := by
    apply zipWith_flatMap_eq
    · exact hl.1.trans hh.1.symm
    · intro p hp
      obtain ⟨hp1, hp2⟩ := List.of_mem_zip hp
      simp only [List.length_flatMap]
      rw [sum_map_const_of _ _ w ?_, (hl.2 p.1 hp1).1,
        sum_map_const_of _ _ w ?_, (hh.2 p.2 hp2).1]
      · intro r hr
        exact ((hh.2 p.2 hp2).2 r hr).1
      · intro r hr
        exact ((hl.2 p.1 hp1).2 r hr).1
  have hxen2 : ∀ p ∈ correctLabel.zip nnLastLayer,
      List.zipWith (fun lb lg => softmaxXent lb lg)
          (p.1.flatMap fun r => r) (p.2.flatMap fun r => r) =
        (p.1.zip p.2).flatMap fun q =>
          List.zipWith (fun lb lg => softmaxXent lb lg) q.1 q.2 := by
    intro p hp
    obtain ⟨hp1, hp2⟩ := List.of_mem_zip hp
    apply zipWith_flatMap_eq
    · exact (hl.2 p.1 hp1).1.trans (hh.2 p.2 hp2).1.symm
    · intro q hq
      obtain ⟨hq1, hq2⟩ := List.of_mem_zip hq
      exact ((hl.2 p.1 hp1).2 q.1 hq1).1.trans (((hh.2 p.2 hp2).2 q.2 hq2).1).symm
  rw [reduceMean, hxen, flatMap_congr hxen2]
  have hden : ((correctLabel.zip nnLastLayer).flatMap fun p =>
      (p.1.zip p.2).flatMap fun q =>
        List.zipWith (fun lb lg => softmaxXent lb lg) q.1 q.2).length = b * h * w := by
    rw [← flatMap_congr hxen2, ← hxen, List.length_zipWith,
      tfReshapeRows_length hl, tfReshapeRows_length hh, Nat.min_self]
  rw [hden, sum_flatMap_real]
  congr 1
  rw [pixelXentSum]
  refine congrArg _ (List.map_congr_left fun p _ => ?_)
  rw [sum_flatMap_real]
  refine congrArg _ (List.map_congr_left fun q _ => ?_)
  rw [zipWith_eq_map_zip]
  push_cast
  ring

/-- C3 witness: the identity evaluated on a one-pixel batch with two
classes. -/
theorem optimize_loss_mean_per_pixel_witness :
    shape4B [[[[(0 : ℝ), 0]]]] 1 1 1 2 ∧
    optimizeLoss [[[[(0 : ℝ), 0]]]] [[[[(1 : ℝ), 0]]]] =
      pixelXentSum [[[[(1 : ℝ), 0]]]] [[[[(0 : ℝ), 0]]]] / (1 * 1 * 1) := by
  have hh : shape4B [[[[(0 : ℝ), 0]]]] 1 1 1 2 := by simp [shape4B]
  have hl : shape4B [[[[(1 : ℝ), 0]]]] 1 1 1 2 := by simp [shape4B]
  have h2 := (optimize_loss_mean_per_pixel _ _ 1 1 1 2 hh hl).2.2.2.2
  norm_num at h2 ⊢
  exact ⟨hh, h2⟩

/-- The mean row-wise cross-entropy is nonnegative when every label row is
one-hot. -/
theorem optimizeLoss_nonneg (nnLastLayer correctLabel : T4 ℝ) (b h w c : ℕ)
    (hh : shape4B nnLastLayer b h w c)
    (hoh : ∀ row ∈ tfReshapeRows correctLabel, ∃ k, k < c ∧ row = oneHot c k) :
    0 ≤ optimizeLoss nnLastLayer correctLabel := by
  show 0 ≤ reduceMean (List.zipWith (fun lb lg => softmaxXent lb lg)
    (tfReshapeRows correctLabel) (tfReshapeRows nnLastLayer))
  rw [reduceMean]
  apply div_nonneg
  · apply List.sum_nonneg
    intro z hz
    obtain ⟨lb, lg, hlb, hlg, rfl⟩ := of_mem_zipWith hz
    obtain ⟨k, hk, rfl⟩ := hoh lb hlb
    have hlen : lg.length = c := tfReshapeRows_row_length hh lg hlg
    rw [← hlen] at hk ⊢
    exact softmaxXent_oneHot_nonneg hk
  · exact Nat.cast_nonneg _

/-- Retrieving the element at the length of the first appended list. -/
theorem getD_append_len (pre suf : List ℝ) (t d : ℝ) :
    (pre ++ t :: suf).getD pre.length d = t := by
  induction pre with
  | nil => rfl
  | cons a p ih => simpa using ih

/-- Sum of exponentials over a row split around one entry. -/
theorem sumExp_append_cons (pre suf : List ℝ) (t : ℝ) :
    sumExp (pre ++ t :: suf) = (sumExp pre + sumExp suf) + Real.exp t := by
  simp only [sumExp, List.map_append, List.map_cons, List.sum_append, List.sum_cons]
  ring

/-- The remaining mass of two row fragments that are not both empty is
positive. -/
theorem sumExp_pair_pos {pre suf : List ℝ} (hne : pre ++ suf ≠ []) :
    0 < sumExp pre + sumExp suf := by
  cases pre with
  | nil =>
    have hs : suf ≠ [] := by simpa using hne
    have := sumExp_pos hs
    have h0 : sumExp ([] : List ℝ) = 0 := by simp [sumExp]
    rw [h0]
    linarith
  | cons a p =>
    have := sumExp_pos (l := a :: p) (by simp)
    have h2 := sumExp_nonneg suf
    linarith

/-- Core monotonicity: log(S + exp t) - t is strictly decreasing in t for
positive S. -/
theorem logSumExp_sub_strict {S x v : ℝ} (hS : 0 < S) (hxv : x < v) :
    Real.log (S + Real.exp v) - v < Real.log (S + Real.exp x) - x := by
  have key : ∀ t : ℝ,
      Real.log (S + Real.exp t) - t = Real.log ((S + Real.exp t) * Real.exp (-t)) := by
    intro t
    rw [Real.log_mul (ne_of_gt (by positivity)) (Real.exp_ne_zero _), Real.log_exp]
    ring
  rw [key x, key v]
  apply Real.log_lt_log (by positivity)
  have e1 : ∀ t : ℝ, (S + Real.exp t) * Real.exp (-t) = S * Real.exp (-t) + 1 := by
    intro t
    rw [Real.exp_neg]
    field_simp
  rw [e1 x, e1 v]
  have hlt : Real.exp (-v) < Real.exp (-x) := Real.exp_lt_exp.mpr (by linarith)
  nlinarith

/-- Raising the correct-class score raises the softmax probability of the
correct class, all other scores fixed. -/
theorem softmaxProb_lt {pre suf : List ℝ} {x v : ℝ} (hxv : x < v)
    (hne : pre ++ suf ≠ []) :
    softmaxProb (pre ++ x :: suf) pre.length < softmaxProb (pre ++ v :: suf) pre.length := by
  have hS := sumExp_pair_pos hne
  rw [softmaxProb, softmaxProb, getD_append_len, getD_append_len,
    sumExp_append_cons, sumExp_append_cons]
  rw [div_lt_div_iff₀ (by positivity) (by positivity)]
  have hex : Real.exp x < Real.exp v := Real.exp_lt_exp.mpr hxv
  nlinarith [mul_lt_mul_of_pos_right hex hS]

/-- Raising the correct-class score strictly lowers the one-hot softmax
cross-entropy of the row, all other scores fixed. -/
theorem softmaxXent_row_strict {pre suf : List ℝ} {x v : ℝ} (hxv : x < v)
    (hne : pre ++ suf ≠ []) :
    softmaxXent (oneHot (pre.length + suf.length + 1) pre.length) (pre ++ v :: suf) <
      softmaxXent (oneHot (pre.length + suf.length + 1) pre.length) (pre ++ x :: suf) := by
  have hlen : ∀ t : ℝ, (pre ++ t :: suf).length = pre.length + suf.length + 1 := by
    intro t
    simp only [List.length_append, List.length_cons]
    omega
  have hk : ∀ t : ℝ, pre.length < (pre ++ t :: suf).length := by
    intro t
    rw [hlen]
    omega
  have hrw : ∀ t : ℝ,
      softmaxXent (oneHot (pre.length + suf.length + 1) pre.length) (pre ++ t :: suf)
        = Real.log ((sumExp pre + sumExp suf) + Real.exp t) - t := by
    intro t
    rw [← hlen t, softmaxXent_oneHot (hk t), getD_append_len, logSumExp, sumExp_append_cons]
  rw [hrw x, hrw v]
  exact logSumExp_sub_strict (sumExp_pair_pos hne) hxv

/-- Sum after updating one entry of a real list. -/
theorem sum_set_real : ∀ (l : List ℝ) (i : ℕ) (a : ℝ), i < l.length →
    (l.set i a).sum = l.sum - l.getD i 0 + a := by
  intro l
  induction l with
  | nil => intro i a h; simp at h
  | cons y ys ih =>
    intro i a h
    cases i with
    | zero => simp [List.set]; ring
    | succ i =>
      simp only [List.set, List.sum_cons, List.getD_cons_succ, ih i a (by simpa using h)]
      ring

/-- Updating the right list of a zipWith updates the corresponding output
entry. -/
theorem zipWith_set_right {A B C : Type} (F : A → B → C) (dA : A) :
    ∀ (L : List A) (X : List B) (i : ℕ) (r : B), i < L.length → i < X.length →
      List.zipWith F L (X.set i r) = (List.zipWith F L X).set i (F (L.getD i dA) r) := by
  intro L
  induction L with
  | nil => intro X i r h _; simp at h
  | cons a t ih =>
    intro X i r hL hX
    cases X with
    | nil => simp at hX
    | cons b s =>
      cases i with
      | zero => simp [List.set]
      | succ i =>
        simp only [List.set, List.zipWith_cons_cons, List.getD_cons_succ]
        rw [ih s i r (by simpa using hL) (by simpa using hX)]

/-- The entry of a zipWith at an in-range index. -/
theorem getD_zipWith {A B C : Type} (F : A → B → C) (dA : A) (dB : B) (dC : C) :
    ∀ (L : List A) (X : List B) (i : ℕ), i < L.length → i < X.length →
      (List.zipWith F L X).getD i dC = F (L.getD i dA) (X.getD i dB) := by
  intro L
  induction L with
  | nil => intro X i h _; simp at h
  | cons a t ih =>
    intro X i hL hX
    cases X with
    | nil => simp at hX
    | cons b s =>
      cases i with
      | zero => simp
      | succ i =>
        simp only [List.zipWith_cons_cons, List.getD_cons_succ]
        exact ih s i (by simpa using hL) (by simpa using hX)

/-- C7: for every valid heat-map and one-hot label tensor the scalar loss of
optimize is nonnegative, and, all other scores fixed, raising the
correct-class score of one pixel raises that pixel's predicted softmax
probability and strictly lowers the scalar loss. -/
theorem optimize_loss_nonneg_and_strictly_decreasing
    (nnLastLayer nnLastLayer' correctLabel : T4 ℝ) (b h w c : ℕ)
    (hh : shape4B nnLastLayer b h w c) (hl : shape4B correctLabel b h w c)
    (hoh : ∀ row ∈ tfReshapeRows correctLabel, ∃ k, k < c ∧ row = oneHot c k)
    (i : ℕ) (pre suf : List ℝ) (x v : ℝ)
    (hi : i < (tfReshapeRows nnLastLayer).length)
    (hrow : (tfReshapeRows nnLastLayer).getD i [] = pre ++ x :: suf)
    (hrows' : tfReshapeRows nnLastLayer' =
      (tfReshapeRows nnLastLayer).set i (pre ++ v :: suf))
    (hlab : (tfReshapeRows correctLabel).getD i [] =
      oneHot (pre.length + suf.length + 1) pre.length)
    (hxv : x < v) (hother : pre ++ suf ≠ []) :
    0 ≤ optimizeLoss nnLastLayer correctLabel ∧
    softmaxProb (pre ++ x :: suf) pre.length < softmaxProb (pre ++ v :: suf) pre.length ∧
    optimizeLoss nnLastLayer' correctLabel < optimizeLoss nnLastLayer correctLabel := by
  refine ⟨optimizeLoss_nonneg nnLastLayer correctLabel b h w c hh hoh,
    softmaxProb_lt hxv hother, ?_⟩
  have hLlen : (tfReshapeRows correctLabel).length = b * h * w := tfReshapeRows_length hl
  have hXlen : (tfReshapeRows nnLastLayer).length = b * h * w := tfReshapeRows_length hh
  have hiL : i < (tfReshapeRows correctLabel).length := by omega
  show reduceMean (List.zipWith (fun lb lg => softmaxXent lb lg)
      (tfReshapeRows correctLabel) (tfReshapeRows nnLastLayer')) <
    reduceMean (List.zipWith (fun lb lg => softmaxXent lb lg)
      (tfReshapeRows correctLabel) (tfReshapeRows nnLastLayer))
  rw [hrows', zipWith_set_right _ ([] : List ℝ) _ _ i _ hiL hi]
  have hiz : i < (List.zipWith (fun lb lg => softmaxXent lb lg)
      (tfReshapeRows correctLabel) (tfReshapeRows nnLastLayer)).length := by
    rw [List.length_zipWith]
    omega
  rw [reduceMean, reduceMean, List.length_set, sum_set_real _ i _ hiz,
    getD_zipWith _ ([] : List ℝ) ([] : List ℝ) 0 _ _ i hiL hi, hlab, hrow]
  have hstrict := softmaxXent_row_strict hxv hother
  have hNpos : (0 : ℝ) < ((List.zipWith (fun lb lg => softmaxXent lb lg)
      (tfReshapeRows correctLabel) (tfReshapeRows nnLastLayer)).length : ℝ) := by
    have h0 : 0 < (List.zipWith (fun lb lg => softmaxXent lb lg)
        (tfReshapeRows correctLabel) (tfReshapeRows nnLastLayer)).length :=
      Nat.lt_of_le_of_lt (Nat.zero_le i) hiz
    exact_mod_cast h0
  apply div_lt_div_of_pos_right ?_ hNpos
  linarith

/-- C7 witness: a one-pixel, two-class instance with the label one-hot at
class 0; raising the class-0 score from 0 to 1 raises its softmax
probability and strictly lowers the loss, which is nonnegative. -/
theorem optimize_loss_nonneg_and_strictly_decreasing_witness :
    (0 : ℝ) < 1 ∧
    0 ≤ optimizeLoss [[[[(0 : ℝ), 0]]]] [[[[(1 : ℝ), 0]]]] ∧
    softmaxProb [(0 : ℝ), 0] 0 < softmaxProb [(1 : ℝ), 0] 0 ∧
    optimizeLoss [[[[(1 : ℝ), 0]]]] [[[[(1 : ℝ), 0]]]] <
      optimizeLoss [[[[(0 : ℝ), 0]]]] [[[[(1 : ℝ), 0]]]] := by
  have hh : shape4B [[[[(0 : ℝ), 0]]]] 1 1 1 2 := by simp [shape4B]
  have hl : shape4B [[[[(1 : ℝ), 0]]]] 1 1 1 2 := by simp [shape4B]
  have hoh : ∀ row ∈ tfReshapeRows [[[[(1 : ℝ), 0]]]], ∃ k, k < 2 ∧ row = oneHot 2 k := by
    intro row hrow
    simp only [tfReshapeRows, List.flatMap_cons, List.flatMap_nil, List.append_nil,
      List.mem_singleton] at hrow
    exact ⟨0, by norm_num, by rw [hrow]; rfl⟩
  have h := optimize_loss_nonneg_and_strictly_decreasing
    [[[[(0 : ℝ), 0]]]] [[[[(1 : ℝ), 0]]]] [[[[(1 : ℝ), 0]]]] 1 1 1 2 hh hl hoh
    0 [] [(0 : ℝ)] 0 1 (by norm_num [tfReshapeRows]) rfl rfl rfl (by norm_num) (by simp)
  exact ⟨by norm_num, h.1, h.2.1, h.2.2⟩
